import Mathlib

/-!
Verification of the `path_jail` filesystem path-sandboxing library.

The Rust sources (`src/jail.rs`, `src/open.rs`, `src/error.rs`, `src/lib.rs`)
are shallowly embedded below.  Strings are modelled as `List Char`, paths as
lists of components, and the host filesystem (an external collaborator of the
library) as a map from absolute paths to entries, with symlink targets given
as absolute paths.  All operations are executable.
-/

/-- Decidable equality for `Except`, used to evaluate the model on concrete
inputs. -/
instance {ε α : Type} [DecidableEq ε] [DecidableEq α] : DecidableEq (Except ε α) := fun x y =>
  match x, y with
  | .ok a, .ok b =>
    if h : a = b then isTrue (by rw [h]) else isFalse (fun hh => h (Except.ok.inj hh))
  | .error a, .error b =>
    if h : a = b then isTrue (by rw [h]) else isFalse (fun hh => h (Except.error.inj hh))
  | .ok _, .error _ => isFalse (fun hh => Except.noConfusion hh)
  | .error _, .ok _ => isFalse (fun hh => Except.noConfusion hh)

namespace PathJail

/-- One path component name, modelled as the character list of the `OsStr`. -/
abbrev Name := List Char

/-- The POSIX path separator. -/
def sepc : Char := '/'

/-- The NUL character (`\0`). -/
def nul : Char := Char.ofNat 0

/-- The backslash character. -/
def bslash : Char := '\\'

/-- One component of a lexical path, as produced by Rust `Path::components()`
on a POSIX host (`Component::Prefix` cannot occur on POSIX). -/
inductive Comp
  | rootDir
  | curDir
  | parentDir
  | normal (name : Name)
deriving DecidableEq

/-- The nonempty pieces of the string split on the separator. -/
def rawPieces (s : List Char) : List (List Char) :=
  (s.splitOn sepc).filter (fun p => p ≠ [])

/-- The pieces of the path with `.` pieces dropped and `..` classified as
`ParentDir`. -/
def coreComps (s : List Char) : List Comp :=
  ((rawPieces s).filter (fun p => p ≠ ['.'])).map
    (fun p => if p = ['.', '.'] then Comp.parentDir else Comp.normal p)

/-- Rust `Path::components()` on POSIX: split the string on `/`, drop empty
pieces, drop `.` pieces except a leading one, classify `..` as `ParentDir`,
and a leading `/` as `RootDir`. -/
def components (s : List Char) : List Comp :=
  if s.head? = some sepc then Comp.rootDir :: coreComps s
  else if (rawPieces s).head? = some ['.'] then Comp.curDir :: coreComps s
  else coreComps s

/-- A directory entry of the modelled host filesystem.  Symlink targets are
modelled as absolute paths (component lists), the form exercised by the
library's documentation and tests. -/
inductive Entry
  | dir
  | file
  | symlink (target : List Name)
deriving DecidableEq

/-- The host filesystem: a map from absolute paths (component lists below
`/`) to entries; `none` means the path does not exist. -/
abbrev FS := List Name → Option Entry

/-- A filesystem given by a finite association list. -/
def FS.ofList (l : List (List Name × Entry)) : FS := fun p => l.lookup p

/-- An `errno` produced by the host during path resolution. -/
inductive CErr
  | enoent
  | enotdir
  | eloop
deriving DecidableEq

/-- One symlink-free stretch of `realpath`: walk the remaining components over
an already-resolved prefix `acc`.  A literal `.` is skipped, a literal `..`
pops the resolved prefix, a missing entry is `ENOENT`, a file met before the
last component is `ENOTDIR`; meeting a symlink returns the restarted todo
list (absolute target followed by the rest). -/
def walkNoSym (fs : FS) : List Name → List Name → Except CErr (List Name ⊕ List Name)
  | acc, [] => .ok (.inl acc)
  | acc, c :: rest =>
    if c = ['.'] then walkNoSym fs acc rest
    else if c = ['.', '.'] then walkNoSym fs acc.dropLast rest
    else
      match fs (acc ++ [c]) with
      | none => .error .enoent
      | some .dir => walkNoSym fs (acc ++ [c]) rest
      | some .file => if rest = [] then .ok (.inl (acc ++ [c])) else .error .enotdir
      | some (.symlink t) => .ok (.inr (t ++ rest))

/-- Fueled `realpath` body: the fuel bounds the number of symlink hops. -/
def canonFuel (fs : FS) : Nat → List Name → Except CErr (List Name)
  | 0, _ => .error .eloop
  | fuel + 1, todo =>
    match walkNoSym fs [] todo with
    | .error e => .error e
    | .ok (.inl r) => .ok r
    | .ok (.inr todo2) => canonFuel fs fuel todo2

/-- Model of `Path::canonicalize` (`realpath(3)`), with the Linux symlink-chain
bound of 40 hops. -/
def canonicalize (fs : FS) (p : List Name) : Except CErr (List Name) :=
  canonFuel fs 41 p

/-- Model of `Path::exists()`: `stat` (which follows symlinks) succeeds. -/
def pathExists (fs : FS) (p : List Name) : Bool :=
  (canonicalize fs p).toOption.isSome

/-- Model of `Path::is_symlink()`: `lstat` reports a symbolic link, i.e. the parent
resolves and the final name maps to a symlink entry. -/
def isSymlink (fs : FS) (p : List Name) : Bool :=
  match p.getLast? with
  | none => false
  | some last =>
    match canonicalize fs p.dropLast with
    | .error _ => false
    | .ok cp =>
      match fs (cp ++ [last]) with
      | some (.symlink _) => true
      | _ => false

/-- Model of `Path::is_dir()`: `stat` succeeds and reports a directory. -/
def isDir (fs : FS) (p : List Name) : Bool :=
  match canonicalize fs p with
  | .error _ => false
  | .ok c =>
    match fs c with
    | some .dir => true
    | _ => false

/-- A Rust `PathBuf`/`Path`, identified with its character string.
`relStr s` is a caller-supplied fragment string; `absL l` is an absolute
path with components `l`; `relL l` is a relative path with components `l`
(as produced by `strip_prefix` or by `join_segments` pushes). -/
inductive PB
  | relStr (s : List Char)
  | absL (l : List Name)
  | relL (l : List Name)
deriving DecidableEq

/-- The string form of a path (`to_string_lossy`). -/
def PB.str : PB → List Char
  | .relStr s => s
  | .absL l => sepc :: List.intercalate [sepc] l
  | .relL l => List.intercalate [sepc] l

/-- Whether the string form contains a NUL byte. -/
def PB.containsNul (p : PB) : Bool := p.str.contains nul

/-- Rust `Path::is_absolute` on POSIX: the path has a root. -/
def PB.isAbsolute (p : PB) : Bool := p.str.head? == some sepc

/-- Rust `Path::components()` of this path. -/
def PB.comps (p : PB) : List Comp := components p.str

/-- Reading a path as the raw component-name list handed to `realpath`:
`RootDir` marks the start, `.` and `..` are kept as literal names for
`realpath` to interpret. -/
def PB.toAbs (p : PB) : List Name :=
  p.comps.foldr (fun c acc =>
    match c with
    | .rootDir => acc
    | .curDir => ['.'] :: acc
    | .parentDir => ['.', '.'] :: acc
    | .normal n => n :: acc) []

/-- The error taxonomy (`JailError` in `src/error.rs`). -/
inductive JailError
  | escapedRoot (attempted : PB) (root : List Name)
  | brokenSymlink (path : List Name)
  | invalidPath (reason : String)
  | invalidRoot (root : List Name)
  | io (e : CErr)
deriving DecidableEq

/-- The jail: an immutable canonical absolute root directory
(`src/jail.rs`). -/
structure Jail where
  root : List Name
deriving DecidableEq

/-- Model of `Jail::new`: canonicalize the root, reject a filesystem root (no parent,
i.e. `[]` here) and non-directories with `InvalidRoot`; propagate host errors
as `Io`. -/
def Jail.new (fs : FS) (p : PB) : Except JailError Jail :=
  match canonicalize fs p.toAbs with
  | .error e => .error (.io e)
  | .ok root =>
    if root = [] ∨ ¬ isDir fs root then .error (.invalidRoot root)
    else .ok ⟨root⟩

/-- Model of `Jail::verify_inside`: canonicalize, then require the canonical form to
begin (component-wise) with the root; the `EscapedRoot` carries the path the
check was invoked on. -/
def Jail.verify_inside (fs : FS) (J : Jail) (path : List Name) : Except JailError (List Name) :=
  match canonicalize fs path with
  | .error e => .error (.io e)
  | .ok canonical =>
    if J.root.isPrefixOf canonical then .ok canonical
    else .error (.escapedRoot (.absL path) J.root)

/-- The per-component loop of `Jail::join`: `attempted` is the original
input (for `EscapedRoot` on a `..` that escapes), `current` the cursor. -/
def Jail.joinLoop (fs : FS) (J : Jail) (attempted : PB) :
    List Name → List Comp → Except JailError (List Name)
  | current, [] => .ok current
  | current, .normal name :: rest =>
    if pathExists fs (current ++ [name]) then
      match J.verify_inside fs (current ++ [name]) with
      | .error e => .error e
      | .ok c2 => J.joinLoop fs attempted c2 rest
    else if isSymlink fs (current ++ [name]) then .error (.brokenSymlink (current ++ [name]))
    else J.joinLoop fs attempted (current ++ [name]) rest
  | current, .parentDir :: rest =>
    if !(J.root.isPrefixOf current.dropLast) then .error (.escapedRoot attempted J.root)
    else if pathExists fs current.dropLast then
      match J.verify_inside fs current.dropLast with
      | .error e => .error e
      | .ok c2 => J.joinLoop fs attempted c2 rest
    else if isSymlink fs current.dropLast then .error (.brokenSymlink current.dropLast)
    else J.joinLoop fs attempted current.dropLast rest
  | current, .curDir :: rest => J.joinLoop fs attempted current rest
  | _, .rootDir :: _ => .error (.invalidPath "absolute components not allowed")

/-- Model of `Jail::join`: reject NUL bytes, reject absolute inputs, then resolve the
components against the cursor starting at the root. -/
def Jail.join (fs : FS) (J : Jail) (p : PB) : Except JailError (List Name) :=
  if p.containsNul then .error (.invalidPath "null bytes not allowed")
  else if p.isAbsolute then .error (.invalidPath "absolute paths not allowed")
  else J.joinLoop fs p J.root p.comps

/-- Model of `Jail::contains`: the input must be absolute and existing; canonicalize
and containment-check via `verify_inside`. -/
def Jail.contains (fs : FS) (J : Jail) (absolute : PB) : Except JailError (List Name) :=
  if !absolute.isAbsolute then .error (.invalidPath "path must be absolute")
  else J.verify_inside fs absolute.toAbs

/-- Model of `Jail::relative`: absolute inputs go through `verify_inside`, relative
ones through `join`; then the root is stripped component-wise. -/
def Jail.relative (fs : FS) (J : Jail) (p : PB) : Except JailError (List Name) :=
  match (if p.isAbsolute then J.verify_inside fs p.toAbs else J.join fs p) with
  | .error e => .error e
  | .ok resolved =>
    if J.root.isPrefixOf resolved then .ok (resolved.drop J.root.length)
    else .error (.escapedRoot p J.root)

/-- The per-segment validation loop of `Jail::join_segments`: empty segments
are skipped; separators, `..` and NUL bytes are rejected with `InvalidPath`;
surviving segments are pushed onto the accumulated path. -/
def segsBuild : List Name → List (List Char) → Except JailError (List Name)
  | acc, [] => .ok acc
  | acc, seg :: rest =>
    if seg = [] then segsBuild acc rest
    else if seg.contains sepc || seg.contains bslash then
      .error (.invalidPath ("segment " ++ String.mk seg ++ " contains path separator"))
    else if seg = ['.', '.'] then
      .error (.invalidPath "segment .. not allowed")
    else if seg.contains nul then
      .error (.invalidPath "segment contains null byte")
    else segsBuild (acc ++ [seg]) rest

/-- Model of `Jail::join_segments`: validate each segment independently, then pass the
concatenation through `join`. -/
def Jail.join_segments (fs : FS) (J : Jail) (segs : List (List Char)) :
    Except JailError (List Name) :=
  match segsBuild [] segs with
  | .error e => .error e
  | .ok names => J.join fs (.relL names)

/-- The free function `path_jail::join` in `src/lib.rs`:
`Jail::new(root)?.join(path)`. -/
def join (fs : FS) (root : PB) (path : PB) : Except JailError (List Name) :=
  match Jail.new fs root with
  | .error e => .error e
  | .ok J => J.join fs path

/-! ### Hardened open layer (`src/open.rs`, Linux flag values) -/

/-- The Linux value of the `O_NOFOLLOW` flag. -/
def O_NOFOLLOW : Int := 0o0400000

/-- The flag set handed to `OpenOptions`: read, write, append, create,
create_new, truncate, and the raw custom flags. -/
structure OpenFlags where
  readFlag : Bool
  writeFlag : Bool
  appendFlag : Bool
  createFlag : Bool
  createNewFlag : Bool
  truncateFlag : Bool
  custom : Int
deriving DecidableEq

/-- Flags used by `Jail::open`: read-only plus `O_NOFOLLOW`. -/
def openFlags : OpenFlags := ⟨true, false, false, false, false, false, O_NOFOLLOW⟩

/-- Flags used by `Jail::create`: write, create-exclusive, `O_NOFOLLOW`. -/
def createFlags : OpenFlags := ⟨false, true, false, false, true, false, O_NOFOLLOW⟩

/-- Flags used by `Jail::create_or_truncate`. -/
def truncateFlags : OpenFlags := ⟨false, true, false, true, false, true, O_NOFOLLOW⟩

/-- Flags used by `Jail::open_append`. -/
def appendFlags : OpenFlags := ⟨false, false, true, true, false, false, O_NOFOLLOW⟩

/-- The host `open` primitive: from flags, path and filesystem to an outcome
and the resulting filesystem (creation may add entries).  The hardened layer
is verified for an arbitrary primitive. -/
abbrev OpenPrim := OpenFlags → List Name → FS → Except CErr Unit × FS

/-- Model of `Jail::open`: resolve via `join`, then invoke the host open with the
read flags; host errors become `Io`. -/
def Jail.open_file (os : OpenPrim) (fs : FS) (J : Jail) (p : PB) :
    Except JailError Unit × FS :=
  match J.join fs p with
  | .error e => (.error e, fs)
  | .ok path =>
    match os openFlags path fs with
    | (.error e, fs2) => (.error (.io e), fs2)
    | (.ok f, fs2) => (.ok f, fs2)

/-- Model of `Jail::create`: resolve via `join`, then open create-exclusive. -/
def Jail.create (os : OpenPrim) (fs : FS) (J : Jail) (p : PB) :
    Except JailError Unit × FS :=
  match J.join fs p with
  | .error e => (.error e, fs)
  | .ok path =>
    match os createFlags path fs with
    | (.error e, fs2) => (.error (.io e), fs2)
    | (.ok f, fs2) => (.ok f, fs2)

/-- Model of `Jail::create_or_truncate`: resolve via `join`, then open truncating. -/
def Jail.create_or_truncate (os : OpenPrim) (fs : FS) (J : Jail) (p : PB) :
    Except JailError Unit × FS :=
  match J.join fs p with
  | .error e => (.error e, fs)
  | .ok path =>
    match os truncateFlags path fs with
    | (.error e, fs2) => (.error (.io e), fs2)
    | (.ok f, fs2) => (.ok f, fs2)

/-- Model of `Jail::open_append`: resolve via `join`, then open appending. -/
def Jail.open_append (os : OpenPrim) (fs : FS) (J : Jail) (p : PB) :
    Except JailError Unit × FS :=
  match J.join fs p with
  | .error e => (.error e, fs)
  | .ok path =>
    match os appendFlags path fs with
    | (.error e, fs2) => (.error (.io e), fs2)
    | (.ok f, fs2) => (.ok f, fs2)

/-! ### Well-formedness predicates for the environment model -/

/-- A legal POSIX file name: nonempty, not `.` or `..`, and without the
separator or the NUL byte. -/
def GoodName (n : Name) : Prop :=
  n ≠ [] ∧ n ≠ ['.'] ∧ n ≠ ['.', '.'] ∧ sepc ∉ n ∧ nul ∉ n

instance (n : Name) : Decidable (GoodName n) := by
  unfold GoodName; exact inferInstance

/-- A lexical component whose name (if any) is a legal file name. -/
def CompGood : Comp → Prop
  | .normal n => GoodName n
  | _ => True

/-- A well-formed filesystem: every existing path is made of legal names. -/
def WF (fs : FS) : Prop := ∀ p e, fs p = some e → ∀ n ∈ p, GoodName n

/-- All pairs of an association list have legal names (decidable front-end
for `WF` on `FS.ofList`). -/
def GoodList (l : List (List Name × Entry)) : Prop :=
  ∀ pr ∈ l, ∀ n ∈ pr.1, GoodName n

instance (l : List (List Name × Entry)) : Decidable (GoodList l) := by
  unfold GoodList; exact inferInstance

/-- A successfully constructed jail: its root is canonical (a fixed point of
`canonicalize`, as `Jail::new` guarantees) and has a parent. -/
def Jail.Valid (fs : FS) (J : Jail) : Prop :=
  canonicalize fs J.root = .ok J.root ∧ J.root ≠ []

/-- No `.` or `..` names occur in the list. -/
def NonDot (r : List Name) : Prop := ∀ n ∈ r, n ≠ ['.'] ∧ n ≠ ['.', '.']

/-- Every nonempty prefix of `r` is a directory of `fs`. -/
def AllDirs (fs : FS) (r : List Name) : Prop :=
  ∀ k, k < r.length → fs (r.take (k + 1)) = some Entry.dir

/-- `r` is a fully resolved path: no dot names, every proper nonempty prefix
is a directory, and `r` itself (if nonempty) is a directory or a file. -/
def Arrived (fs : FS) (r : List Name) : Prop :=
  NonDot r ∧ (∀ k, k + 1 < r.length → fs (r.take (k + 1)) = some Entry.dir) ∧
    (r ≠ [] → fs r = some Entry.dir ∨ fs r = some Entry.file)

/-! ### Concrete fixtures used to witness the theorems -/

/-- A small filesystem: a jail root `/r` containing a directory `a` (with a
subdirectory `b` and a file `f`), a broken symlink `d -> /n`, a symlink
`e -> /t` escaping to the outside directory `/t`. -/
def exList : List (List Name × Entry) :=
  [([['r']], .dir),
   ([['r'], ['a']], .dir),
   ([['r'], ['a'], ['b']], .dir),
   ([['r'], ['a'], ['f']], .file),
   ([['r'], ['d']], .symlink [['n']]),
   ([['r'], ['e']], .symlink [['t']]),
   ([['t']], .dir)]

/-- The fixture filesystem. -/
def exFS : FS := FS.ofList exList

/-- The fixture jail rooted at `/r`. -/
def exJ : Jail := ⟨[['r']]⟩

/-- A host open primitive that always succeeds and leaves the filesystem
unchanged (any primitive works for the theorems; this one witnesses them). -/
def idOpen : OpenPrim := fun _ _ fs => (.ok (), fs)

/-! ### Basic lemmas about the resolver -/

theorem isPrefixOf_true_iff {l1 l2 : List Name} : l1.isPrefixOf l2 = true ↔ l1 <+: l2 := by
  simp

theorem verify_inside_ok {fs : FS} {J : Jail} {path c : List Name}
    (h : J.verify_inside fs path = .ok c) :
    canonicalize fs path = .ok c ∧ J.root <+: c := by
  unfold Jail.verify_inside at h
  split at h
  · exact Except.noConfusion h
  · rename_i canonical hcan
    split at h
    · rename_i hpre
      cases h
      exact ⟨hcan, isPrefixOf_true_iff.mp hpre⟩
    · exact Except.noConfusion h

theorem verify_inside_escape {fs : FS} {J : Jail} {path c : List Name}
    (hcan : canonicalize fs path = .ok c) (hpre : J.root.isPrefixOf c = false) :
    J.verify_inside fs path = .error (.escapedRoot (.absL path) J.root) := by
  unfold Jail.verify_inside
  rw [hcan]
  simp [hpre]

theorem verify_inside_of_canon {fs : FS} {J : Jail} {path c : List Name}
    (hcan : canonicalize fs path = .ok c) (hpre : J.root.isPrefixOf c = true) :
    J.verify_inside fs path = .ok c := by
  unfold Jail.verify_inside
  rw [hcan]
  simp [hpre]

theorem joinLoop_keeps_root {fs : FS} {J : Jail} {p : PB} :
    ∀ (cs : List Comp) (current q : List Name), J.root <+: current →
      J.joinLoop fs p current cs = .ok q → J.root <+: q := by
  intro cs
  induction cs with
  | nil =>
    intro current q hpre h
    rw [Jail.joinLoop] at h
    cases h
    exact hpre
  | cons c rest ih =>
    intro current q hpre h
    cases c with
    | rootDir => rw [Jail.joinLoop] at h; exact Except.noConfusion h
    | curDir => rw [Jail.joinLoop] at h; exact ih current q hpre h
    | normal name =>
      rw [Jail.joinLoop] at h
      split at h
      · split at h
        · exact Except.noConfusion h
        · rename_i c2 hv
          exact ih c2 q (verify_inside_ok hv).2 h
      · split at h
        · exact Except.noConfusion h
        · exact ih _ q (hpre.trans (List.prefix_append current [name])) h
    | parentDir =>
      rw [Jail.joinLoop] at h
      split at h
      · exact Except.noConfusion h
      · rename_i hnp
        split at h
        · split at h
          · exact Except.noConfusion h
          · rename_i c2 hv
            exact ih c2 q (verify_inside_ok hv).2 h
        · split at h
          · exact Except.noConfusion h
          · refine ih _ q ?_ h
            have hb : J.root.isPrefixOf current.dropLast = true := by
              revert hnp
              cases J.root.isPrefixOf current.dropLast <;> simp
            exact isPrefixOf_true_iff.mp hb

theorem not_isPrefixOf_dropLast {l : List Name} (h : l ≠ []) :
    l.isPrefixOf l.dropLast = false := by
  rw [Bool.eq_false_iff]
  intro hc
  have hp := isPrefixOf_true_iff.mp hc
  have hle := hp.length_le
  rw [List.length_dropLast] at hle
  have hpos : 0 < l.length := List.length_pos.mpr h
  omega

theorem joinLoop_parent_escape {fs : FS} {J : Jail} {p : PB} {rest : List Comp}
    (hroot : J.root ≠ []) :
    J.joinLoop fs p J.root (.parentDir :: rest) = .error (.escapedRoot p J.root) := by
  rw [Jail.joinLoop, not_isPrefixOf_dropLast hroot]
  rfl

theorem joinLoop_curDirs {fs : FS} {J : Jail} {p : PB} :
    ∀ (cs : List Comp), (∀ c ∈ cs, c = Comp.curDir) →
      ∀ current, J.joinLoop fs p current cs = .ok current := by
  intro cs
  induction cs with
  | nil => intro _ current; rw [Jail.joinLoop]
  | cons c rest ih =>
    intro hall current
    have hc : c = Comp.curDir := hall c (List.mem_cons_self c rest)
    subst hc
    rw [Jail.joinLoop]
    exact ih (fun d hd => hall d (List.mem_cons_of_mem _ hd)) current

/-! ### Claim theorems -/

/-- C1: for every jail `J` and input `p`, if `J.join fs p` succeeds with `q`,
then `q` has `J.root` as a component-wise prefix (`<+:` on component lists,
so `/a/b` is not treated as a prefix of `/a/bb`). -/
theorem C1_join_result_inside_root (fs : FS) (J : Jail) (p : PB) (q : List Name)
    (h : J.join fs p = .ok q) : J.root <+: q := by
  unfold Jail.join at h
  split at h
  · exact Except.noConfusion h
  · split at h
    · exact Except.noConfusion h
    · exact joinLoop_keeps_root p.comps J.root q (List.prefix_refl _) h

theorem C1_witness :
    Jail.join exFS exJ (.relStr ['a']) = .ok [['r'], ['a']] ∧ exJ.root <+: [['r'], ['a']] :=
  ⟨by decide, C1_join_result_inside_root exFS exJ (.relStr ['a']) [['r'], ['a']] (by decide)⟩

/-- C3: whenever the cursor reaches a broken symlink — a path that does not
exist (`stat` fails) yet is a symlink (`lstat` sees a link) — the resolver
fails with `BrokenSymlink` carrying that cursor path, both when the path was
reached by appending a normal component and when it was reached by popping a
`..`; the final conjunct lifts the first to a full `join` call. -/
theorem C3_broken_symlink_fails (fs : FS) (J : Jail) (p : PB) (c1 c2 : List Name)
    (name : Name) (rest1 rest2 : List Comp)
    (h1 : pathExists fs (c1 ++ [name]) = false) (h2 : isSymlink fs (c1 ++ [name]) = true)
    (h3 : J.root.isPrefixOf c2.dropLast = true) (h4 : pathExists fs c2.dropLast = false)
    (h5 : isSymlink fs c2.dropLast = true) :
    J.joinLoop fs p c1 (.normal name :: rest1) = .error (.brokenSymlink (c1 ++ [name])) ∧
    J.joinLoop fs p c2 (.parentDir :: rest2) = .error (.brokenSymlink c2.dropLast) ∧
    (c1 = J.root → p.containsNul = false → p.isAbsolute = false →
      p.comps = .normal name :: rest1 →
      J.join fs p = .error (.brokenSymlink (J.root ++ [name]))) := by
  refine ⟨?_, ?_, ?_⟩
  · rw [Jail.joinLoop, if_neg (by simp [h1]), if_pos h2]
  · rw [Jail.joinLoop, if_neg (by simp [h3]), if_neg (by simp [h4]), if_pos h5]
  · intro hc1 hnul habs hcomps
    subst hc1
    unfold Jail.join
    rw [hnul, habs, hcomps]
    simp only [Bool.false_eq_true, if_false]
    rw [Jail.joinLoop, if_neg (by simp [h1]), if_pos h2]

theorem C3_witness :
    Jail.join exFS exJ (.relStr ['d']) = .error (.brokenSymlink [['r'], ['d']]) :=
  (C3_broken_symlink_fails exFS exJ (.relStr ['d']) [['r']] [['r'], ['d'], ['z']] ['d'] [] []
    (by decide) (by decide) (by decide) (by decide) (by decide)).2.2
    rfl (by decide) (by decide) (by decide)

/-- C7: each hardened-open operation first resolves its fragment through
`join`; when resolution fails the operation returns exactly the join error
and the filesystem is unchanged (no file is opened or created), for an
arbitrary host open primitive. -/
theorem C7_open_propagates_join_error (os : OpenPrim) (fs : FS) (J : Jail) (p : PB)
    (e : JailError) (h : J.join fs p = .error e) :
    Jail.open_file os fs J p = (.error e, fs) ∧
    Jail.create os fs J p = (.error e, fs) ∧
    Jail.create_or_truncate os fs J p = (.error e, fs) ∧
    Jail.open_append os fs J p = (.error e, fs) := by
  unfold Jail.open_file Jail.create Jail.create_or_truncate Jail.open_append
  rw [h]
  exact ⟨rfl, rfl, rfl, rfl⟩

theorem C7_witness :
    Jail.open_file idOpen exFS exJ (.relStr ['/', 'x']) =
      (.error (.invalidPath "absolute paths not allowed"), exFS) :=
  (C7_open_propagates_join_error idOpen exFS exJ (.relStr ['/', 'x'])
    (.invalidPath "absolute paths not allowed") (by decide)).1

/-- C8: a NUL-free, non-absolute input all of whose components are `.`
(in particular the empty input, which has no components) resolves to exactly
the jail root: `.` components are skipped by the resolver. -/
theorem C8_dots_resolve_to_root (fs : FS) (J : Jail) (p : PB)
    (hnul : p.containsNul = false) (habs : p.isAbsolute = false)
    (hdots : ∀ c ∈ p.comps, c = Comp.curDir) :
    J.join fs p = .ok J.root := by
  unfold Jail.join
  rw [hnul, habs]
  simp only [Bool.false_eq_true, if_false]
  exact joinLoop_curDirs p.comps hdots J.root

theorem C8_witness :
    Jail.join exFS exJ (.relStr []) = .ok [['r']] ∧
    Jail.join exFS exJ (.relStr ['.', '/', '.']) = .ok [['r']] :=
  ⟨C8_dots_resolve_to_root exFS exJ (.relStr []) (by decide) (by decide) (by decide),
   C8_dots_resolve_to_root exFS exJ (.relStr ['.', '/', '.']) (by decide) (by decide) (by decide)⟩

/-- C9: the free function `join(root, p)` behaves exactly as
`Jail::new(root)` followed by `.join(p)`: it propagates a construction error
unchanged, and on successful construction returns exactly what the jail's
`join` returns. -/
theorem C9_free_join_equiv (fs : FS) (root p : PB) :
    (∀ e, Jail.new fs root = .error e → join fs root p = .error e) ∧
    (∀ J, Jail.new fs root = .ok J → join fs root p = J.join fs p) := by
  constructor
  · intro e he
    unfold join
    rw [he]
  · intro J hJ
    unfold join
    rw [hJ]

theorem C9_witness :
    join exFS (.absL [['r']]) (.relStr ['a']) = Jail.join exFS exJ (.relStr ['a']) :=
  (C9_free_join_equiv exFS (.absL [['r']]) (.relStr ['a'])).2 exJ (by decide)

/-- C10: for an absolute path whose canonicalization fails (in particular a
path that does not exist, even one lexically inside the root), `contains`
and `relative` fail with `Io` wrapping exactly the OS error from
canonicalization — not with `EscapedRoot` or `InvalidPath`. -/
theorem C10_nonexistent_gives_io (fs : FS) (J : Jail) (l : List Name) (e : CErr)
    (h : canonicalize fs (PB.absL l).toAbs = .error e) :
    Jail.contains fs J (.absL l) = .error (.io e) ∧
    Jail.relative fs J (.absL l) = .error (.io e) := by
  have habs : (PB.absL l).isAbsolute = true := by
    simp [PB.isAbsolute, PB.str]
  constructor
  · unfold Jail.contains
    rw [habs]
    simp only [Bool.not_true, Bool.false_eq_true, if_false]
    unfold Jail.verify_inside
    rw [h]
  · unfold Jail.relative
    rw [habs]
    simp only [if_pos]
    unfold Jail.verify_inside
    rw [h]

theorem C10_witness :
    Jail.contains exFS exJ (.absL [['r'], ['z']]) = .error (.io .enoent) ∧
    Jail.relative exFS exJ (.absL [['r'], ['z']]) = .error (.io .enoent) :=
  C10_nonexistent_gives_io exFS exJ [['r'], ['z']] .enoent (by decide)

theorem segsBuild_bad {segs : List (List Char)}
    (h : ∃ seg ∈ segs, seg ≠ [] ∧
      (seg.contains sepc = true ∨ seg.contains bslash = true ∨
       seg.contains nul = true ∨ seg = ['.', '.'])) :
    ∀ acc, ∃ r, segsBuild acc segs = .error (.invalidPath r) := by
  induction segs with
  | nil =>
    obtain ⟨seg, hm, _⟩ := h
    exact absurd hm (List.not_mem_nil seg)
  | cons seg rest ih =>
    intro acc
    rw [segsBuild]
    split
    · rename_i he
      refine ih ?_ acc
      obtain ⟨s, hm, hne, hbad⟩ := h
      rcases List.mem_cons.mp hm with rfl | hm2
      · exact absurd he hne
      · exact ⟨s, hm2, hne, hbad⟩
    · split
      · exact ⟨_, rfl⟩
      · split
        · exact ⟨_, rfl⟩
        · split
          · exact ⟨_, rfl⟩
          · rename_i hne hsep hdd hnul
            refine ih ?_ (acc ++ [seg])
            obtain ⟨s, hm, hsne, hbad⟩ := h
            rcases List.mem_cons.mp hm with rfl | hm2
            · exfalso
              rcases hbad with hb | hb | hb | hb
              · exact hsep (by rw [hb]; rfl)
              · exact hsep (by rw [hb, Bool.or_true])
              · exact hnul hb
              · exact hdd hb
            · exact ⟨s, hm2, hsne, hbad⟩

/-- C4: if any nonempty segment contains `/`, `\`, or a NUL byte, or equals
`..`, then `join_segments` fails with `InvalidPath`; the rejection happens
during per-segment validation, before any filesystem resolution — witnessed
by the error being identical for every filesystem and every jail. -/
theorem C4_bad_segment_invalid (fs fs2 : FS) (J J2 : Jail) (segs : List (List Char))
    (h : ∃ seg ∈ segs, seg ≠ [] ∧
      (seg.contains sepc = true ∨ seg.contains bslash = true ∨
       seg.contains nul = true ∨ seg = ['.', '.'])) :
    ∃ r, J.join_segments fs segs = .error (.invalidPath r) ∧
      J2.join_segments fs2 segs = .error (.invalidPath r) := by
  obtain ⟨r, hr⟩ := segsBuild_bad h []
  refine ⟨r, ?_, ?_⟩
  · unfold Jail.join_segments
    rw [hr]
  · unfold Jail.join_segments
    rw [hr]

theorem C4_witness :
    ∃ r, Jail.join_segments exFS exJ [['.', '.'], ['e', 't', 'c']] =
        .error (.invalidPath r) ∧
      Jail.join_segments (FS.ofList []) ⟨[['t']]⟩ [['.', '.'], ['e', 't', 'c']] =
        .error (.invalidPath r) :=
  C4_bad_segment_invalid exFS (FS.ofList []) exJ ⟨[['t']]⟩ [['.', '.'], ['e', 't', 'c']]
    (by decide)

/-- C6 counterexample: joining `e` (a symlink to the outside directory `/t`)
fails the containment check after canonicalizing the existing cursor; the
`EscapedRoot` error carries the absolute cursor path `/r/e` in its
`attempted` field, which is not the caller-supplied input `e`.  The claim
that `attempted` always equals the original input is therefore false. -/
theorem C6_counterexample :
    Jail.join exFS exJ (.relStr ['e']) =
      .error (.escapedRoot (.absL [['r'], ['e']]) [['r']]) ∧
    PB.absL [['r'], ['e']] ≠ PB.relStr ['e'] := by
  decide

/-- C6 amended: every `EscapedRoot` failure carries `J.root` in its `root`
field; in the `..`-pop branch of `join` the `attempted` field is the
caller's original input, while in a containment-check failure inside
`verify_inside` (reached by `join` after canonicalizing an existing cursor)
the `attempted` field is the absolute cursor path that failed the check. -/
theorem C6_escaped_root_fields (fs : FS) (J : Jail) (p : PB) (cur path c : List Name)
    (rest : List Comp)
    (hpop : J.root.isPrefixOf cur.dropLast = false)
    (hcan : canonicalize fs path = .ok c) (hpre : J.root.isPrefixOf c = false) :
    J.joinLoop fs p cur (.parentDir :: rest) = .error (.escapedRoot p J.root) ∧
    J.verify_inside fs path = .error (.escapedRoot (.absL path) J.root) := by
  constructor
  · rw [Jail.joinLoop, hpop]
    rfl
  · exact verify_inside_escape hcan hpre

/-! ### Resolution theory: outputs of `canonicalize` are fully resolved -/

theorem walkNoSym_inl_arrived {fs : FS} :
    ∀ (todo acc r : List Name), walkNoSym fs acc todo = .ok (.inl r) →
      NonDot acc → AllDirs fs acc → Arrived fs r := by
  intro todo
  induction todo with
  | nil =>
    intro acc r h hnd had
    rw [walkNoSym] at h
    cases h
    refine ⟨hnd, fun k hk => had k (by omega), fun hne => ?_⟩
    have hlen : 0 < acc.length := List.length_pos.mpr hne
    have hd := had (acc.length - 1) (by omega)
    rw [show acc.length - 1 + 1 = acc.length by omega, List.take_length] at hd
    exact Or.inl hd
  | cons c rest ih =>
    intro acc r h hnd had
    rw [walkNoSym] at h
    split at h
    · exact ih acc r h hnd had
    · rename_i hdot1
      split at h
      · refine ih acc.dropLast r h ?_ ?_
        · exact fun n hn => hnd n (List.dropLast_subset acc hn)
        · intro k hk
          rw [List.length_dropLast] at hk
          rw [List.dropLast_eq_take, List.take_take, Nat.min_eq_left (by omega)]
          exact had k (by omega)
      · rename_i hdot2
        split at h
        · exact Except.noConfusion h
        · rename_i hdir
          refine ih (acc ++ [c]) r h ?_ ?_
          · intro n hn
            rcases List.mem_append.mp hn with hn1 | hn2
            · exact hnd n hn1
            · rw [List.mem_singleton.mp hn2]
              exact ⟨hdot1, hdot2⟩
          · intro k hk
            rw [List.length_append, List.length_singleton] at hk
            by_cases hkl : k < acc.length
            · rw [List.take_append_of_le_length (by omega)]
              exact had k hkl
            · have hke : k = acc.length := by omega
              subst hke
              rw [show acc.length + 1 = (acc ++ [c]).length by simp, List.take_length]
              exact hdir
        · rename_i hfile
          split at h
          · rename_i hrest
            cases h
            subst hrest
            refine ⟨?_, ?_, fun _ => Or.inr hfile⟩
            · intro n hn
              rcases List.mem_append.mp hn with hn1 | hn2
              · exact hnd n hn1
              · rw [List.mem_singleton.mp hn2]
                exact ⟨hdot1, hdot2⟩
            · intro k hk
              rw [List.length_append, List.length_singleton] at hk
              rw [List.take_append_of_le_length (by omega)]
              exact had k (by omega)
          · exact Except.noConfusion h
        · exact Sum.noConfusion (Except.ok.inj h)

theorem canonFuel_arrived {fs : FS} :
    ∀ (fuel : Nat) (todo r : List Name), canonFuel fs fuel todo = .ok r →
      Arrived fs r := by
  intro fuel
  induction fuel with
  | zero => exact fun todo r h => Except.noConfusion h
  | succ n ih =>
    intro todo r h
    rw [canonFuel] at h
    split at h
    · exact Except.noConfusion h
    · rename_i hw
      cases h
      exact walkNoSym_inl_arrived todo [] _ hw
        (fun n hn => absurd hn (List.not_mem_nil n)) (fun k hk => absurd hk (Nat.not_lt_zero k))
    · rename_i todo2 hw
      exact ih todo2 r h

theorem canonicalize_arrived {fs : FS} {p r : List Name}
    (h : canonicalize fs p = .ok r) : Arrived fs r :=
  canonFuel_arrived 41 p r h

theorem Arrived.take {fs : FS} {r : List Name} (h : Arrived fs r) (k : Nat)
    (hk : k ≤ r.length) : Arrived fs (r.take k) := by
  obtain ⟨hnd, hdirs, hlast⟩ := h
  refine ⟨fun n hn => hnd n (List.take_subset k r hn), ?_, ?_⟩
  · intro j hj
    rw [List.length_take] at hj
    rw [List.take_take, Nat.min_eq_left (by omega)]
    exact hdirs j (by omega)
  · intro hne
    have hkpos : 0 < k := by
      rcases Nat.eq_zero_or_pos k with h0 | h0
      · subst h0; simp at hne
      · exact h0
    rcases Nat.lt_or_ge k r.length with hlt | hge
    · left
      have hd := hdirs (k - 1) (by omega)
      rw [show k - 1 + 1 = k by omega] at hd
      exact hd
    · have hke : k = r.length := by omega
      subst hke
      rw [List.take_length]
      rw [List.take_length] at hne
      exact hlast hne

theorem arrived_walk {fs : FS} {r : List Name} (h : Arrived fs r) :
    ∀ (rest acc : List Name), acc ++ rest = r →
      walkNoSym fs acc rest = .ok (.inl r) := by
  obtain ⟨hnd, hdirs, hlast⟩ := h
  intro rest
  induction rest with
  | nil =>
    intro acc hacc
    rw [List.append_nil] at hacc
    rw [walkNoSym, hacc]
  | cons c rest2 ih =>
    intro acc hacc
    have hcr : c ∈ r := by
      rw [← hacc]
      exact List.mem_append.mpr (Or.inr (List.mem_cons_self _ _))
    have hcd := hnd c hcr
    rw [walkNoSym, if_neg hcd.1, if_neg hcd.2]
    have hpref : acc ++ [c] = r.take (acc.length + 1) := by
      rw [← hacc, List.take_append]
      rfl
    cases rest2 with
    | nil =>
      have hr : acc ++ [c] = r := by rw [← hacc]
      have hrne : r ≠ [] := by
        rw [← hr]
        exact List.append_ne_nil_of_right_ne_nil _ (by simp)
      rcases hlast hrne with hd | hf
      · rw [hr, hd]
        show walkNoSym fs r [] = .ok (.inl r)
        rw [walkNoSym]
      · rw [hr, hf]
        rfl
    | cons d rest3 =>
      have hlen : acc.length + 1 < r.length := by
        rw [← hacc]
        simp only [List.length_append, List.length_cons]
        omega
      have hdir := hdirs acc.length hlen
      rw [← hpref] at hdir
      rw [hdir]
      exact ih (acc ++ [c]) (by rw [← hacc]; simp)

theorem arrived_canonFuel {fs : FS} {r : List Name} (h : Arrived fs r) (fuel : Nat) :
    canonFuel fs (fuel + 1) r = .ok r := by
  rw [canonFuel, arrived_walk h r [] rfl]

theorem arrived_selfcanon {fs : FS} {r : List Name} (h : Arrived fs r) :
    canonicalize fs r = .ok r :=
  arrived_canonFuel h 40

theorem canon_idem {fs : FS} {p c : List Name} (h : canonicalize fs p = .ok c) :
    canonicalize fs c = .ok c :=
  arrived_selfcanon (canonicalize_arrived h)

theorem arrived_goodnames {fs : FS} {r : List Name} (hwf : WF fs) (h : Arrived fs r) :
    ∀ n ∈ r, GoodName n := by
  intro n hn
  have hne : r ≠ [] := by
    intro h0
    subst h0
    exact List.not_mem_nil n hn
  rcases h.2.2 hne with hd | hf
  · exact hwf r Entry.dir hd n hn
  · exact hwf r Entry.file hf n hn

theorem pathExists_iff {fs : FS} {p : List Name} :
    pathExists fs p = true ↔ ∃ c, canonicalize fs p = .ok c := by
  unfold pathExists
  cases h : canonicalize fs p with
  | error e =>
    simp only [Except.toOption, Option.isSome_none, Bool.false_eq_true, false_iff]
    rintro ⟨c, hc⟩
    exact Except.noConfusion hc
  | ok c =>
    simp only [Except.toOption, Option.isSome_some, true_iff]
    exact ⟨c, rfl⟩

theorem lookup_mem {el : List (List Name × Entry)} {p : List Name} {e : Entry} :
    el.lookup p = some e → (p, e) ∈ el := by
  induction el with
  | nil => exact fun h => Option.noConfusion h
  | cons pr rest ih =>
    obtain ⟨k, b⟩ := pr
    intro h
    rw [List.lookup] at h
    split at h
    · rename_i hbeq
      cases h
      have hk : p = k := eq_of_beq hbeq
      rw [hk]
      exact List.mem_cons_self _ _
    · exact List.mem_cons_of_mem _ (ih h)

theorem WF_ofList {el : List (List Name × Entry)} (h : GoodList el) :
    WF (FS.ofList el) := by
  intro p e hpe n hn
  unfold FS.ofList at hpe
  exact h (p, e) (lookup_mem hpe) n hn

/-! ### Parsing lemmas: `components` on well-formed names -/

theorem splitOnP_pieces (p : Char → Bool) :
    ∀ (xs : List Char), ∀ l ∈ xs.splitOnP p, ∀ y ∈ l, p y = false := by
  intro xs
  induction xs with
  | nil =>
    intro l hl y hy
    rw [List.splitOnP_nil] at hl
    rw [List.mem_singleton.mp hl] at hy
    exact absurd hy (List.not_mem_nil y)
  | cons c rest ih =>
    intro l hl y hy
    rw [List.splitOnP_cons] at hl
    by_cases hc : p c = true
    · rw [if_pos hc] at hl
      rcases List.mem_cons.mp hl with rfl | h2
      · exact absurd hy (List.not_mem_nil y)
      · exact ih l h2 y hy
    · rw [if_neg hc] at hl
      cases hsp : rest.splitOnP p with
      | nil => exact absurd hsp (List.splitOnP_ne_nil p rest)
      | cons hd tl =>
        rw [hsp, List.modifyHead_cons] at hl
        rcases List.mem_cons.mp hl with rfl | h2
        · rcases List.mem_cons.mp hy with rfl | h3
          · exact Bool.eq_false_iff.mpr hc
          · exact ih hd (by rw [hsp]; exact List.mem_cons_self _ _) y h3
        · exact ih l (by rw [hsp]; exact List.mem_cons_of_mem _ h2) y hy

theorem splitOn_eq_splitOnP (x : Char) (s : List Char) :
    s.splitOn x = s.splitOnP (· == x) := rfl

theorem splitOn_pieces_not_mem {x : Char} {s : List Char} :
    ∀ l ∈ s.splitOn x, x ∉ l := by
  intro l hl hx
  rw [splitOn_eq_splitOnP] at hl
  have hp := splitOnP_pieces (· == x) s l hl x hx
  simp at hp

theorem mem_intersperse_of_mem {α : Type} {sep x : α} :
    ∀ {ls : List α}, x ∈ ls → x ∈ List.intersperse sep ls := by
  intro ls
  induction ls with
  | nil => exact fun h => absurd h (List.not_mem_nil x)
  | cons a t ih =>
    intro h
    cases t with
    | nil =>
      rw [List.intersperse_single]
      exact h
    | cons b t2 =>
      rw [List.intersperse_cons₂]
      rcases List.mem_cons.mp h with rfl | h2
      · exact List.mem_cons_self _ _
      · exact List.mem_cons_of_mem _ (List.mem_cons_of_mem _ (ih h2))

theorem mem_of_mem_intersperse {α : Type} {sep x : α} :
    ∀ {ls : List α}, x ∈ List.intersperse sep ls → x = sep ∨ x ∈ ls := by
  intro ls
  induction ls with
  | nil =>
    intro h
    rw [List.intersperse_nil] at h
    exact absurd h (List.not_mem_nil x)
  | cons a t ih =>
    intro h
    cases t with
    | nil =>
      rw [List.intersperse_single] at h
      exact Or.inr h
    | cons b t2 =>
      rw [List.intersperse_cons₂] at h
      rcases List.mem_cons.mp h with rfl | h2
      · exact Or.inr (List.mem_cons_self _ _)
      · rcases List.mem_cons.mp h2 with rfl | h3
        · exact Or.inl rfl
        · rcases ih h3 with h4 | h4
          · exact Or.inl h4
          · exact Or.inr (List.mem_cons_of_mem _ h4)

theorem mem_of_mem_intercalate_piece {x : Char} {ls : List (List Char)} {l : List Char}
    {y : Char} (hl : l ∈ ls) (hy : y ∈ l) : y ∈ List.intercalate [x] ls := by
  rw [List.intercalate]
  exact List.mem_flatten.mpr ⟨l, mem_intersperse_of_mem hl, hy⟩

theorem mem_intercalate_elim {x : Char} {ls : List (List Char)} {y : Char}
    (h : y ∈ List.intercalate [x] ls) : y = x ∨ ∃ l ∈ ls, y ∈ l := by
  rw [List.intercalate] at h
  obtain ⟨l, hl, hy⟩ := List.mem_flatten.mp h
  rcases mem_of_mem_intersperse hl with rfl | h2
  · exact Or.inl (List.mem_singleton.mp hy)
  · exact Or.inr ⟨l, h2, hy⟩

theorem mem_of_mem_splitOn_piece {x : Char} {s l : List Char} {y : Char}
    (hl : l ∈ s.splitOn x) (hy : y ∈ l) : y ∈ s := by
  have hi := List.intercalate_splitOn s x
  rw [← hi]
  exact mem_of_mem_intercalate_piece hl hy

theorem components_normal_good {s : List Char} (hnul : s.contains nul = false) :
    ∀ n, Comp.normal n ∈ components s → GoodName n := by
  intro n hc
  have hcore : Comp.normal n ∈ coreComps s := by
    unfold components at hc
    split at hc
    · rcases List.mem_cons.mp hc with h1 | h1
      · exact absurd h1 (by simp)
      · exact h1
    · split at hc
      · rcases List.mem_cons.mp hc with h1 | h1
        · exact absurd h1 (by simp)
        · exact h1
      · exact hc
  unfold coreComps at hcore
  obtain ⟨piece, hpm, hpe⟩ := List.mem_map.mp hcore
  have hne2 : piece ≠ ['.', '.'] := by
    intro hdd
    rw [if_pos hdd] at hpe
    exact Comp.noConfusion hpe
  rw [if_neg hne2] at hpe
  have hnp : n = piece := (Comp.normal.inj hpe).symm
  subst hnp
  have hfil := List.mem_filter.mp hpm
  have hnd : n ≠ ['.'] := by simpa using hfil.2
  have hraw := hfil.1
  unfold rawPieces at hraw
  have hfil2 := List.mem_filter.mp hraw
  have hsp : n ∈ s.splitOn sepc := hfil2.1
  have hne : n ≠ [] := by simpa using hfil2.2
  refine ⟨hne, hnd, hne2, splitOn_pieces_not_mem n hsp, ?_⟩
  intro hmem
  have hms : nul ∈ s := mem_of_mem_splitOn_piece hsp hmem
  have hcont : s.contains nul = true := List.elem_eq_true_of_mem hms
  rw [hnul] at hcont
  exact Bool.noConfusion hcont

theorem comps_good_of_no_nul {p : PB} (h : p.containsNul = false) :
    ∀ c ∈ p.comps, CompGood c := by
  intro c hc
  cases c with
  | rootDir => exact trivial
  | curDir => exact trivial
  | parentDir => exact trivial
  | normal n => exact components_normal_good h n hc

theorem filter_ne_nil_of_good {l : List Name} (hg : ∀ n ∈ l, GoodName n) :
    l.filter (fun p => p ≠ []) = l :=
  List.filter_eq_self.mpr (fun n hn => by simpa using (hg n hn).1)

theorem rawPieces_intercalate {l : List Name} (hg : ∀ n ∈ l, GoodName n) :
    rawPieces (List.intercalate [sepc] l) = l := by
  cases l with
  | nil => rfl
  | cons a t =>
    unfold rawPieces
    rw [List.splitOn_intercalate (a :: t) sepc (fun n hn => (hg n hn).2.2.2.1) (by simp)]
    exact filter_ne_nil_of_good hg

theorem coreComps_of_raw {s : List Char} {l : List Name} (hraw : rawPieces s = l)
    (hg : ∀ n ∈ l, GoodName n) : coreComps s = l.map Comp.normal := by
  unfold coreComps
  rw [hraw]
  rw [List.filter_eq_self.mpr (fun n hn => by simpa using (hg n hn).2.1)]
  exact List.map_congr_left (fun n hn => if_neg (hg n hn).2.2.1)

theorem intercalate_cons_append (x : List Char) (a : Name) (t : List Name) :
    ∃ z, List.intercalate x (a :: t) = a ++ z := by
  cases t with
  | nil => exact ⟨[], by simp [List.intercalate]⟩
  | cons b t2 =>
    exact ⟨x ++ List.intercalate x (b :: t2),
      by simp [List.intercalate, List.intersperse_cons₂]⟩

theorem head_intercalate_good {l : List Name} (hg : ∀ n ∈ l, GoodName n) :
    (List.intercalate [sepc] l).head? ≠ some sepc := by
  cases l with
  | nil =>
    intro h
    simp [List.intercalate] at h
  | cons a t =>
    obtain ⟨z, hz⟩ := intercalate_cons_append [sepc] a t
    rw [hz]
    have hga := hg a (List.mem_cons_self _ _)
    cases a with
    | nil => exact absurd rfl hga.1
    | cons c a2 =>
      rw [List.cons_append, List.head?_cons]
      intro h
      have hcs : c = sepc := by injection h
      subst hcs
      exact hga.2.2.2.1 (List.mem_cons_self _ _)

theorem relL_isAbsolute {l : List Name} (hg : ∀ n ∈ l, GoodName n) :
    (PB.relL l).isAbsolute = false := by
  unfold PB.isAbsolute PB.str
  rw [beq_eq_false_iff_ne]
  exact head_intercalate_good hg

theorem relL_containsNul {l : List Name} (hg : ∀ n ∈ l, GoodName n) :
    (PB.relL l).containsNul = false := by
  unfold PB.containsNul PB.str
  rw [Bool.eq_false_iff]
  intro hc
  have hmem : nul ∈ List.intercalate [sepc] l := List.mem_of_elem_eq_true hc
  rcases mem_intercalate_elim hmem with h1 | ⟨n, hn, hy⟩
  · exact absurd h1 (by decide)
  · exact (hg n hn).2.2.2.2 hy

theorem relL_comps {l : List Name} (hg : ∀ n ∈ l, GoodName n) :
    (PB.relL l).comps = l.map Comp.normal := by
  have hraw := rawPieces_intercalate hg
  unfold PB.comps PB.str components
  rw [if_neg (head_intercalate_good hg), hraw]
  rw [if_neg ?hh]
  case hh =>
    intro hh
    cases l with
    | nil => exact Option.noConfusion hh
    | cons a t =>
      rw [List.head?_cons] at hh
      have ha : a = ['.'] := by injection hh
      exact (hg a (List.mem_cons_self _ _)).2.1 ha
  exact coreComps_of_raw hraw hg

theorem absL_comps {l : List Name} (hg : ∀ n ∈ l, GoodName n) :
    (PB.absL l).comps = Comp.rootDir :: l.map Comp.normal := by
  have hstr : (PB.absL l).str = sepc :: List.intercalate [sepc] l := rfl
  unfold PB.comps components
  rw [hstr,
    if_pos (show (sepc :: List.intercalate [sepc] l).head? = some sepc from rfl)]
  congr 1
  refine coreComps_of_raw ?_ hg
  unfold rawPieces
  rw [show (sepc :: List.intercalate [sepc] l).splitOn sepc
        = [] :: (List.intercalate [sepc] l).splitOn sepc from ?_]
  · rw [List.filter_cons_of_neg (by simp)]
    exact rawPieces_intercalate hg
  · rw [splitOn_eq_splitOnP, splitOn_eq_splitOnP, List.splitOnP_cons, if_pos (by simp)]

theorem foldr_toAbs_normals (l : List Name) :
    (l.map Comp.normal).foldr (fun c acc =>
      match c with
      | Comp.rootDir => acc
      | Comp.curDir => ['.'] :: acc
      | Comp.parentDir => ['.', '.'] :: acc
      | Comp.normal n => n :: acc) [] = l := by
  induction l with
  | nil => rfl
  | cons a t ih => rw [List.map_cons, List.foldr_cons, ih]

theorem toAbs_absL {l : List Name} (hg : ∀ n ∈ l, GoodName n) :
    (PB.absL l).toAbs = l := by
  unfold PB.toAbs
  rw [absL_comps hg, List.foldr_cons]
  exact foldr_toAbs_normals l

/-! ### Invariants of the join loop used by the inverse law -/

theorem joinLoop_canon_inv {fs : FS} {J : Jail} {p : PB} (hwf : WF fs) :
    ∀ (cs : List Comp) (current q : List Name),
      (∀ c ∈ cs, CompGood c) → (∀ n ∈ current, GoodName n) →
      (canonicalize fs current = .ok current ∨ pathExists fs current = false) →
      J.joinLoop fs p current cs = .ok q →
      (∀ n ∈ q, GoodName n) ∧
        (canonicalize fs q = .ok q ∨ pathExists fs q = false) := by
  intro cs
  induction cs with
  | nil =>
    intro current q _ hg hc h
    rw [Jail.joinLoop] at h
    cases h
    exact ⟨hg, hc⟩
  | cons c rest ih =>
    intro current q hcs hg hc h
    have hcs2 : ∀ d ∈ rest, CompGood d := fun d hd => hcs d (List.mem_cons_of_mem _ hd)
    cases c with
    | rootDir =>
      rw [Jail.joinLoop] at h
      exact Except.noConfusion h
    | curDir =>
      rw [Jail.joinLoop] at h
      exact ih current q hcs2 hg hc h
    | normal name =>
      have hgn : GoodName name := hcs _ (List.mem_cons_self _ _)
      rw [Jail.joinLoop] at h
      split at h
      · split at h
        · exact Except.noConfusion h
        · rename_i c2 hv
          have hcan := (verify_inside_ok hv).1
          have harr := canonicalize_arrived hcan
          exact ih c2 q hcs2 (arrived_goodnames hwf harr)
            (Or.inl (arrived_selfcanon harr)) h
      · rename_i hex
        split at h
        · exact Except.noConfusion h
        · refine ih _ q hcs2 ?_ (Or.inr ?_) h
          · intro n hn
            rcases List.mem_append.mp hn with h1 | h2
            · exact hg n h1
            · rw [List.mem_singleton.mp h2]
              exact hgn
          · revert hex
            cases pathExists fs (current ++ [name]) <;> simp
    | parentDir =>
      rw [Jail.joinLoop] at h
      split at h
      · exact Except.noConfusion h
      · split at h
        · split at h
          · exact Except.noConfusion h
          · rename_i c2 hv
            have hcan := (verify_inside_ok hv).1
            have harr := canonicalize_arrived hcan
            exact ih c2 q hcs2 (arrived_goodnames hwf harr)
              (Or.inl (arrived_selfcanon harr)) h
        · rename_i hex
          split at h
          · exact Except.noConfusion h
          · refine ih _ q hcs2
              (fun n hn => hg n (List.dropLast_subset current hn)) (Or.inr ?_) h
            revert hex
            cases pathExists fs current.dropLast <;> simp

theorem joinLoop_rewalk {fs : FS} {J : Jail} {p : PB} {q : List Name}
    (harr : Arrived fs q) :
    ∀ (tail acc : List Name), acc ++ tail = q → J.root <+: acc →
      J.joinLoop fs p acc (tail.map Comp.normal) = .ok q := by
  intro tail
  induction tail with
  | nil =>
    intro acc hacc _
    rw [List.append_nil] at hacc
    rw [List.map_nil, Jail.joinLoop, hacc]
  | cons t rest ih =>
    intro acc hacc hpre
    rw [List.map_cons, Jail.joinLoop]
    have hctake : acc ++ [t] = q.take (acc.length + 1) := by
      rw [← hacc, List.take_append]
      rfl
    have hlen : acc.length + 1 ≤ q.length := by
      rw [← hacc]
      simp only [List.length_append, List.length_cons]
      omega
    have harrc : Arrived fs (acc ++ [t]) := by
      rw [hctake]
      exact Arrived.take harr _ hlen
    have hcanc : canonicalize fs (acc ++ [t]) = .ok (acc ++ [t]) := arrived_selfcanon harrc
    have hexc : pathExists fs (acc ++ [t]) = true := pathExists_iff.mpr ⟨_, hcanc⟩
    rw [hexc, if_pos rfl]
    have hpc : J.root.isPrefixOf (acc ++ [t]) = true :=
      isPrefixOf_true_iff.mpr (hpre.trans (List.prefix_append _ _))
    have hv : J.verify_inside fs (acc ++ [t]) = .ok (acc ++ [t]) :=
      verify_inside_of_canon hcanc hpc
    rw [hv]
    exact ih (acc ++ [t]) (by rw [← hacc]; simp) (hpre.trans (List.prefix_append _ _))

/-- C5 (inverse law): if `q = J.join fs p` succeeds on a well-formed
filesystem and valid jail, and `q` exists, then `J.relative` of `q` succeeds
with the stripped remainder `r = q.drop J.root.length`, and joining `r` back
returns exactly `q`. -/
theorem C5_join_relative_roundtrip (fs : FS) (J : Jail) (p : PB) (q : List Name)
    (hwf : WF fs) (hval : J.Valid fs) (hj : J.join fs p = .ok q)
    (hex : pathExists fs q = true) :
    Jail.relative fs J (.absL q) = .ok (q.drop J.root.length) ∧
    J.join fs (.relL (q.drop J.root.length)) = .ok q := by
  unfold Jail.join at hj
  split at hj
  · exact Except.noConfusion hj
  · rename_i hnul
    split at hj
    · exact Except.noConfusion hj
    · have hnulf : p.containsNul = false := by
        revert hnul
        cases p.containsNul <;> simp
      have hqpre : J.root <+: q := joinLoop_keeps_root p.comps J.root q (List.prefix_refl _) hj
      have hcg : ∀ c ∈ p.comps, CompGood c := comps_good_of_no_nul hnulf
      have hrarr : Arrived fs J.root := canonicalize_arrived hval.1
      have hrootg : ∀ n ∈ J.root, GoodName n := arrived_goodnames hwf hrarr
      obtain ⟨hqg, hqc⟩ :=
        joinLoop_canon_inv hwf p.comps J.root q hcg hrootg (Or.inl hval.1) hj
      have hqcan : canonicalize fs q = .ok q := by
        rcases hqc with h1 | h1
        · exact h1
        · rw [hex] at h1
          exact Bool.noConfusion h1
      have harrq : Arrived fs q := canonicalize_arrived hqcan
      obtain ⟨r0, hr0⟩ := hqpre
      have hdrop : q.drop J.root.length = r0 := by
        rw [← hr0, List.drop_left]
      have hrg : ∀ n ∈ r0, GoodName n := by
        intro n hn
        refine hqg n ?_
        rw [← hr0]
        exact List.mem_append.mpr (Or.inr hn)
      have hqpre2 : J.root <+: q := ⟨r0, hr0⟩
      have hpc : J.root.isPrefixOf q = true := isPrefixOf_true_iff.mpr hqpre2
      constructor
      · have habsq : (PB.absL q).isAbsolute = true := by
          unfold PB.isAbsolute PB.str
          simp
        have htoabs : (PB.absL q).toAbs = q := toAbs_absL hqg
        have hv : J.verify_inside fs q = .ok q := verify_inside_of_canon hqcan hpc
        unfold Jail.relative
        rw [habsq, if_pos rfl, htoabs, hv]
        simp [hpc]
      · rw [hdrop]
        unfold Jail.join
        rw [relL_containsNul hrg, relL_isAbsolute hrg]
        simp only [Bool.false_eq_true, if_false]
        rw [relL_comps hrg]
        exact joinLoop_rewalk harrq r0 J.root hr0 (List.prefix_refl _)

theorem C5_witness :
    Jail.relative exFS exJ (.absL [['r'], ['a']]) = .ok [['a']] ∧
    Jail.join exFS exJ (.relL [['a']]) = .ok [['r'], ['a']] :=
  C5_join_relative_roundtrip exFS exJ (.relStr ['a']) [['r'], ['a']]
    (WF_ofList (by decide)) ⟨by decide, by decide⟩ (by decide) (by decide)

/-! ### Completeness of the escape analysis (C2) -/

theorem rootDir_not_mem_core (s : List Char) : Comp.rootDir ∉ coreComps s := by
  intro hmem
  unfold coreComps at hmem
  obtain ⟨piece, _, hpe⟩ := List.mem_map.mp hmem
  by_cases hdd : piece = ['.', '.']
  · rw [if_pos hdd] at hpe
    exact Comp.noConfusion hpe
  · rw [if_neg hdd] at hpe
    exact Comp.noConfusion hpe

theorem rootDir_not_mem_comps {p : PB} (habs : p.isAbsolute = false) :
    Comp.rootDir ∉ p.comps := by
  intro hmem
  unfold PB.comps components at hmem
  split at hmem
  · rename_i hhead
    have habs2 : p.isAbsolute = true := by
      unfold PB.isAbsolute
      exact beq_iff_eq.mpr hhead
    rw [habs] at habs2
    exact Bool.noConfusion habs2
  · split at hmem
    · rcases List.mem_cons.mp hmem with h1 | h1
      · exact Comp.noConfusion h1
      · exact rootDir_not_mem_core _ h1
    · exact rootDir_not_mem_core _ hmem

theorem verify_inside_outcomes {fs : FS} {J : Jail} {c : List Name}
    (hex : pathExists fs c = true) :
    (∃ c2, J.verify_inside fs c = .ok c2 ∧ J.root <+: c2) ∨
    J.verify_inside fs c = .error (.escapedRoot (.absL c) J.root) := by
  obtain ⟨cc, hcc⟩ := pathExists_iff.mp hex
  by_cases hp : J.root.isPrefixOf cc = true
  · exact Or.inl ⟨cc, verify_inside_of_canon hcc hp, isPrefixOf_true_iff.mp hp⟩
  · have hp2 : J.root.isPrefixOf cc = false := by
      revert hp
      cases J.root.isPrefixOf cc <;> simp
    exact Or.inr (verify_inside_escape hcc hp2)

theorem joinLoop_normal_escape {fs : FS} {J : Jail} {p : PB}
    (cur : List Name) (name : Name) (c : List Name) (rest : List Comp)
    (hcan : canonicalize fs (cur ++ [name]) = .ok c)
    (hpre : J.root.isPrefixOf c = false) :
    J.joinLoop fs p cur (.normal name :: rest) =
      .error (.escapedRoot (.absL (cur ++ [name])) J.root) := by
  have hex : pathExists fs (cur ++ [name]) = true := pathExists_iff.mpr ⟨c, hcan⟩
  rw [Jail.joinLoop, hex, if_pos rfl, verify_inside_escape hcan hpre]

theorem joinLoop_outcomes {fs : FS} {J : Jail} {p : PB} :
    ∀ (cs : List Comp) (current : List Name), J.root <+: current →
      Comp.rootDir ∉ cs →
      (∃ q, J.joinLoop fs p current cs = .ok q ∧ J.root <+: q) ∨
      (∃ s, J.joinLoop fs p current cs = .error (.brokenSymlink s)) ∨
      (∃ a r, J.joinLoop fs p current cs = .error (.escapedRoot a r)) := by
  intro cs
  induction cs with
  | nil =>
    intro current hpre _
    exact Or.inl ⟨current, by rw [Jail.joinLoop], hpre⟩
  | cons c rest ih =>
    intro current hpre hnr
    have hnr2 : Comp.rootDir ∉ rest := fun h => hnr (List.mem_cons_of_mem _ h)
    cases c with
    | rootDir => exact absurd (List.mem_cons_self _ _) hnr
    | curDir =>
      rw [Jail.joinLoop]
      exact ih current hpre hnr2
    | normal name =>
      rw [Jail.joinLoop]
      by_cases hex : pathExists fs (current ++ [name]) = true
      · rw [hex, if_pos rfl]
        rcases verify_inside_outcomes hex with ⟨c2, hv, hp2⟩ | hv
        · rw [hv]
          exact ih c2 hp2 hnr2
        · rw [hv]
          exact Or.inr (Or.inr ⟨_, _, rfl⟩)
      · have hexf : pathExists fs (current ++ [name]) = false := by
          revert hex
          cases pathExists fs (current ++ [name]) <;> simp
        rw [hexf]
        simp only [Bool.false_eq_true, if_false]
        by_cases hsym : isSymlink fs (current ++ [name]) = true
        · rw [hsym, if_pos rfl]
          exact Or.inr (Or.inl ⟨_, rfl⟩)
        · have hsymf : isSymlink fs (current ++ [name]) = false := by
            revert hsym
            cases isSymlink fs (current ++ [name]) <;> simp
          rw [hsymf]
          simp only [Bool.false_eq_true, if_false]
          exact ih _ (hpre.trans (List.prefix_append _ _)) hnr2
    | parentDir =>
      rw [Jail.joinLoop]
      by_cases hpp : J.root.isPrefixOf current.dropLast = true
      · rw [hpp]
        simp only [Bool.not_true, Bool.false_eq_true, if_false]
        by_cases hex : pathExists fs current.dropLast = true
        · rw [hex, if_pos rfl]
          rcases verify_inside_outcomes hex with ⟨c2, hv, hp2⟩ | hv
          · rw [hv]
            exact ih c2 hp2 hnr2
          · rw [hv]
            exact Or.inr (Or.inr ⟨_, _, rfl⟩)
        · have hexf : pathExists fs current.dropLast = false := by
            revert hex
            cases pathExists fs current.dropLast <;> simp
          rw [hexf]
          simp only [Bool.false_eq_true, if_false]
          by_cases hsym : isSymlink fs current.dropLast = true
          · rw [hsym, if_pos rfl]
            exact Or.inr (Or.inl ⟨_, rfl⟩)
          · have hsymf : isSymlink fs current.dropLast = false := by
              revert hsym
              cases isSymlink fs current.dropLast <;> simp
            rw [hsymf]
            simp only [Bool.false_eq_true, if_false]
            exact ih _ (isPrefixOf_true_iff.mp hpp) hnr2
      · have hppf : J.root.isPrefixOf current.dropLast = false := by
          revert hpp
          cases J.root.isPrefixOf current.dropLast <;> simp
        rw [hppf]
        exact Or.inr (Or.inr ⟨_, _, rfl⟩)

/-- C2: for every jail and every relative, NUL-free input whose resolved
target lies outside the root, `join` fails with the `EscapedRoot` kind, not
success and not another kind.  Formalised by covering both escape mechanisms
and closing the outcome space: (i) a `..` meeting a cursor at the root (the
only pop that can escape, by the C1 prefix invariant) yields exactly
`EscapedRoot` carrying the input; (ii) a cursor whose canonical form — e.g.
through a symlink — falls outside the root fails the containment check and
yields exactly `EscapedRoot`; (iii) the instance of (i) for `..` as the
first component of the input, at the level of `join` itself; (iv) on such
inputs `join` can only succeed with a result inside the root, fail with
`BrokenSymlink` (a broken link: canonicalization fails, so no resolved
target exists), or fail with the `EscapedRoot` kind — never with
`InvalidPath` or `Io` — so every resolution that determines a target outside
the root surfaces as `EscapedRoot`. -/
theorem C2_escape_outside_root (fs : FS) (J : Jail) (p : PB)
    (hroot : J.root ≠ []) (hnul : p.containsNul = false)
    (habs : p.isAbsolute = false) :
    (∀ rest : List Comp,
        J.joinLoop fs p J.root (.parentDir :: rest) =
          .error (.escapedRoot p J.root)) ∧
    (∀ (cur : List Name) (name : Name) (c : List Name) (rest : List Comp),
        canonicalize fs (cur ++ [name]) = .ok c → J.root.isPrefixOf c = false →
        J.joinLoop fs p cur (.normal name :: rest) =
          .error (.escapedRoot (.absL (cur ++ [name])) J.root)) ∧
    (∀ rest : List Comp, p.comps = .parentDir :: rest →
        J.join fs p = .error (.escapedRoot p J.root)) ∧
    ((∃ q, J.join fs p = .ok q ∧ J.root <+: q) ∨
     (∃ s, J.join fs p = .error (.brokenSymlink s)) ∨
     (∃ a r, J.join fs p = .error (.escapedRoot a r))) := by
  refine ⟨fun rest => joinLoop_parent_escape hroot,
    fun cur name c rest hcan hpre => joinLoop_normal_escape cur name c rest hcan hpre,
    ?_, ?_⟩
  · intro rest hc
    unfold Jail.join
    rw [hnul, habs, hc]
    simp only [Bool.false_eq_true, if_false]
    exact joinLoop_parent_escape hroot
  · unfold Jail.join
    rw [hnul, habs]
    simp only [Bool.false_eq_true, if_false]
    exact joinLoop_outcomes p.comps J.root (List.prefix_refl _)
      (rootDir_not_mem_comps habs)

theorem C2_witness :
    Jail.joinLoop exFS exJ (.relStr ['e']) [['r']] [Comp.normal ['e']] =
      .error (.escapedRoot (.absL [['r'], ['e']]) [['r']]) ∧
    Jail.join exFS exJ (.relStr ['.', '.']) =
      .error (.escapedRoot (.relStr ['.', '.']) [['r']]) := by
  refine ⟨?_, ?_⟩
  · exact (C2_escape_outside_root exFS exJ (.relStr ['e']) (by decide) (by decide)
      (by decide)).2.1 [['r']] ['e'] [['t']] [] (by decide) (by decide)
  · exact (C2_escape_outside_root exFS exJ (.relStr ['.', '.']) (by decide) (by decide)
      (by decide)).2.2.1 [] (by decide)

theorem C6_witness :
    Jail.joinLoop exFS exJ (.relStr ['.', '.']) [['r']] [.parentDir] =
      .error (.escapedRoot (.relStr ['.', '.']) [['r']]) ∧
    Jail.verify_inside exFS exJ [['r'], ['e']] =
      .error (.escapedRoot (.absL [['r'], ['e']]) [['r']]) :=
  C6_escaped_root_fields exFS exJ (.relStr ['.', '.']) [['r']] [['r'], ['e']] [['t']] []
    (by decide) (by decide) (by decide)

end PathJail
